import Mathlib

/-!
Shallow embedding of `src/s3.go` (package main of arilotter/s3up) and proofs
about its behaviour.

The Go file implements: a glob-based ignore filter (`isUploadableFile`), a
`filepath.Walk`-based enumerator (`sourceFiles`), a single-file uploader
(`uploadFile`) computing the destination key with `filepath.Join`, and an
orchestrator (`Upload`) running a fixed pool of workers with a goto-based
30-attempt retry loop classifying `awserr.Error` values as retryable.

External collaborators (the zglob matcher, the filesystem, the S3 client and
the mime table) are modelled as explicit parameters; the control flow of the
Go functions themselves is translated statement by statement.
-/

namespace S3Up

/-- Model of `zglob.Match(pattern, path) (bool, error)`: `.ok b` when the
pattern compiles and matching yields `b`, `.error msg` when the pattern is
malformed.  The matcher is an external library, so it is a parameter. -/
abbrev GlobMatcher : Type := String → String → Except String Bool

/-- Lines 71-82 of `s3.go`: loop over `s.Config.S3.Ignore`; `zglob.Match(pat,
path)`; on error return `(false, err)`; on match return `(false, nil)`;
after the loop return `(true, nil)`.  The boolean result is carried in the
`Except` success value; the Go `(false, err)` pair is the `.error` case. -/
def isUploadableFile (m : GlobMatcher) : List String → String → Except String Bool
  | [], _ => .ok true
  | pat :: rest, path =>
    match m pat path with
    | .error e => .error e
    | .ok b => if b then .ok false else isUploadableFile m rest path

/-- Concrete stand-in for `zglob.Match` on the inputs used by witnesses:
the pattern `"["` (an unterminated character class) is malformed and every
other pattern matches exactly itself. -/
def exMatcher : GlobMatcher := fun pat path =>
  if pat = "[" then .error "unexpected end of input" else .ok (pat == path)

/-! ### Upload worker: errors, destination key, `uploadFile` -/

/-- Errors produced by one `uploadFile` call: the `os.Open` failure of line
129 (an `*os.PathError`, not an `awserr.Error`) or a transport/service error
from `req.Send()` on line 167 (an `awserr.Error` carrying a code). -/
inductive UploadErr where
  | openErr (path : String) : UploadErr
  | awsErr (code : String) : UploadErr
deriving DecidableEq, Repr

/-- The classification `_, ok := err.(awserr.Error)` of line 200: only
transport/service errors are `awserr.Error` values. -/
def isAwsError : UploadErr → Bool
  | .awsErr _ => true
  | .openErr _ => false

/-- One stack step of Go's `path.Clean` component resolution for a rooted
path: empty and `"."` components are dropped, `".."` pops the last kept
component (or is dropped at the root), anything else is kept. -/
def goCleanComps : List (List Char) → List (List Char) → List (List Char)
  | stack, [] => stack.reverse
  | stack, c :: rest =>
    if c = [] ∨ c = ['.'] then goCleanComps stack rest
    else if c = ['.', '.'] then goCleanComps stack.tail rest
    else goCleanComps (c :: stack) rest

/-- Go's `filepath.Clean` on a rooted (leading-`'/'`) slash-separated path:
split on `'/'`, resolve the components, re-join under the leading `'/'`. -/
def goCleanRooted (cs : List Char) : List Char :=
  match goCleanComps [] (cs.splitOn '/') with
  | [] => ['/']
  | comps => '/' :: List.intercalate ['/'] comps

/-- Line 140: `destPath := filepath.Join("/", s.Config.S3.Prefix, path)`.
Go's `filepath.Join` concatenates its arguments (starting from the first
non-empty one, here always `"/"`) with `'/'` separators and applies `Clean`;
the argument is therefore always rooted. -/
def destKey (pfx path : String) : String :=
  ⟨goCleanRooted ('/' :: '/' :: (pfx.data ++ '/' :: path.data))⟩

/-- Configuration consumed by the upload path (`s.Config.S3` fields used in
`uploadFile`; `pfx` models the `Prefix` field). -/
structure S3Config where
  bucket : String
  pfx : String
  acl : String
  cacheControl : String
  ignore : List String

/-- The `s3.PutObjectInput` value built on lines 153-163 (the body stream is
not modelled; no claim depends on the bytes sent). -/
structure PutObjectInput where
  bucket : String
  key : String
  acl : String
  contentType : String
  cacheControl : Option String
deriving DecidableEq, Repr

/-- External collaborators of `uploadFile`: whether `os.Open` succeeds for a
relative path, the `mime.TypeByExtension` table, and the outcome of
`req.Send()` (`some code` is an `awserr.Error`, `none` is success). -/
structure UploadEnv where
  openOk : String → Bool
  mimeByExt : String → String
  putResult : PutObjectInput → Option String

/-- Model of `filepath.Ext`: scan the path from its end; the extension starts at the
final dot of the final slash-separated element (empty if none). `seen`
accumulates the characters already passed, `cs` is the reversed path. -/
def findExtRev : List Char → List Char → List Char
  | _, [] => []
  | seen, c :: rest =>
    if c = '/' then []
    else if c = '.' then '.' :: seen
    else findExtRev (c :: seen) rest

/-- Model of `mime.TypeByExtension(filepath.Ext(path))` with the line 136-138
fallback to `application/octet-stream`. -/
def mimeTypeFor (env : UploadEnv) (path : String) : String :=
  let m := env.mimeByExt ⟨findExtRev [] path.data.reverse⟩
  if m = "" then "application/octet-stream" else m

/-- The `PutObjectInput` of lines 148-163: default ACL `"private"` when the
configured ACL is empty, destination key from `destKey`, cache-control set
only when configured. -/
def putInputFor (cfg : S3Config) (env : UploadEnv) (path : String) : PutObjectInput :=
  ⟨cfg.bucket, destKey cfg.pfx path,
    if cfg.acl = "" then "private" else cfg.acl,
    mimeTypeFor env path,
    if cfg.cacheControl ≠ "" then some cfg.cacheControl else none⟩

/-- Result of one `uploadFile` call: the Go `(int, error)` pair, plus the
number of `PutObjectRequest` sends it performed (0 or 1), which the Go code
does not return but which the dry-run claim is about. -/
structure UploadFileResult where
  res : Except UploadErr Nat
  netCalls : Nat

/-- Lines 125-174 of `s3.go`: open the file (failure returns the error with
count 0); in dry-run mode only log and return `(0, nil)` without any send;
otherwise send the put request, returning its error or `(1, nil)`. -/
def uploadFile (cfg : S3Config) (env : UploadEnv) (path : String) (dryrun : Bool) :
    UploadFileResult :=
  if env.openOk path = false then ⟨.error (.openErr path), 0⟩
  else if dryrun then ⟨.ok 0, 0⟩
  else
    match env.putResult (putInputFor cfg env path) with
    | some code => ⟨.error (.awsErr code), 1⟩
    | none => ⟨.ok 1, 1⟩

/-! ### Retry loop (lines 196-216) -/

/-- A worker panic: retry exhaustion (`panic(err)`, line 209) or an error of
an unrecognized class (`panic(fmt.Sprintf("unknown error! ..."))`, line 212).
An unrecovered panic in any goroutine aborts the whole process. -/
inductive PanicKind where
  | retriesExhausted (e : UploadErr) : PanicKind
  | unknownError (e : UploadErr) : PanicKind
deriving DecidableEq, Repr

/-- What one task's retry loop did: the Go outcome (success count or panic),
plus instrumentation the claims are about — how many `uploadFile` attempts
ran, how many one-second `time.Sleep` backoffs ran, and how many put
requests were sent. -/
structure TaskRun where
  outcome : Except PanicKind Nat
  attempts : Nat
  sleepSeconds : Nat
  netCalls : Nat

/-- The goto-based loop of lines 196-216, as iteration.  `oracle i` is the
result of the `uploadFile` call on the `i`-th attempt (0-based).  On success
the count is kept; on an `awserr.Error` the counter `numRetries` is
decremented and, while it stays positive, the loop sleeps one second and
retries; at zero it panics; any other error panics immediately. -/
def retryLoop (oracle : Nat → UploadFileResult) (idx : Nat) (numRetries : Nat) : TaskRun :=
  let a := oracle idx
  match a.res with
  | .ok n => ⟨.ok n, 1, 0, a.netCalls⟩
  | .error e =>
    if isAwsError e then
      if h : 0 < numRetries - 1 then
        let rest := retryLoop oracle (idx + 1) (numRetries - 1)
        ⟨rest.outcome, rest.attempts + 1, rest.sleepSeconds + 1, rest.netCalls + a.netCalls⟩
      else ⟨.error (.retriesExhausted e), 1, 0, a.netCalls⟩
    else ⟨.error (.unknownError e), 1, 0, a.netCalls⟩
termination_by numRetries
decreasing_by omega

/-- One task as the worker runs it: `numRetries := 30` (line 196) and the
retry loop starting at attempt 0. -/
def runTask (oracle : Nat → UploadFileResult) : TaskRun :=
  retryLoop oracle 0 30

/-- Witness fixture: every attempt fails with a retryable service error. -/
def oracleAllFail : Nat → UploadFileResult :=
  fun _ => ⟨.error (.awsErr "InternalError"), 1⟩

/-- Witness fixture: attempts 1 and 2 fail retryably, attempt 3 succeeds. -/
def oracleSucc3 : Nat → UploadFileResult :=
  fun i => if i < 2 then ⟨.error (.awsErr "InternalError"), 1⟩ else ⟨.ok 1, 1⟩

/-- Witness fixture configuration (bucket `bkt`, key prefix `site`). -/
def cfgEx : S3Config := ⟨"bkt", "site", "", "", []⟩

/-- Witness fixture environment in which every file opens and every put
succeeds. -/
def envOk : UploadEnv := ⟨fun _ => true, fun _ => "", fun _ => none⟩

/-- Witness fixture environment in which no file can be opened. -/
def envNoOpen : UploadEnv := ⟨fun _ => false, fun _ => "", fun _ => none⟩

/-! ### Filesystem model and `sourceFiles` (lines 84-123) -/

/-- An error surfaced by the walk callback of `sourceFiles`: a pattern
compilation error from `isUploadableFile` (line 97) or an `os.Stat` failure
(line 105), carrying the relative path it happened at. -/
inductive WalkErr where
  | globErr (msg : String) : WalkErr
  | statErr (relPath : String) : WalkErr
deriving DecidableEq, Repr

mutual
/-- A node of the source tree.  `file statFails` is a regular file whose
`os.Stat` call fails iff `statFails` (modelling a path removed mid-walk);
`dir readFails statFails children` is a directory whose `readDirNames`
fails iff `readFails` (e.g. permission denied).  Children are listed in the
sorted order `filepath.Walk` visits them in. -/
inductive FSNode where
  | file (statFails : Bool) : FSNode
  | dir (readFails : Bool) (statFails : Bool) (children : FSEntries) : FSNode
/-- Named directory entries, a list of name and node pairs. -/
inductive FSEntries where
  | nil : FSEntries
  | cons (name : String) (node : FSNode) (rest : FSEntries) : FSEntries
end

/-- The relative path string of a component list: components joined with
`'/'`.  The Go code obtains this string as
`strings.TrimPrefix(path, s.SourcePath)[1:]` where `path` was built by
`filepath.Join`-ing the source root with the components (the root is taken
to be a non-root absolute path, so the trim plus slice leaves exactly the
slash-joined components). -/
def joinRel : List String → String
  | [] => ""
  | [c] => c
  | c :: rest => c ++ "/" ++ joinRel rest

/-- The walk callback of lines 88-116, for the entry at relative component
list `rel`: the root (`cpath == ""`) is skipped; otherwise the ignore filter
runs (its error aborts); then `os.Stat` (its failure aborts); directories
are skipped; regular files append their relative path to `acc`.  The `err`
argument Go passes to the callback is ignored by the code, so it does not
appear here. -/
def walkFn (m : GlobMatcher) (ign : List String) (rel : List String)
    (isDir : Bool) (statFails : Bool) (acc : List String) :
    Except WalkErr (List String) :=
  if rel = [] then .ok acc
  else
    match isUploadableFile m ign (joinRel rel) with
    | .error e => .error (.globErr e)
    | .ok false => .ok acc
    | .ok true =>
      if statFails then .error (.statErr (joinRel rel))
      else if isDir then .ok acc
      else .ok (acc ++ [joinRel rel])

mutual
/-- Go's `filepath.Walk` recursion (`path/filepath/path.go`) specialised to
the callback above.  For a file the callback runs with a nil walk error.
For a directory, `readDirNames` runs first and the callback receives its
error; the code ignores that error and returns nil, and `walk` then
returns the callback's result — so a failed directory read silently skips
the subtree, while a callback error aborts the whole walk. -/
def walkNode (m : GlobMatcher) (ign : List String) (rel : List String)
    (acc : List String) : FSNode → Except WalkErr (List String)
  | .file sf => walkFn m ign rel false sf acc
  | .dir rf sf children =>
    match walkFn m ign rel true sf acc with
    | .error e => .error e
    | .ok acc' => if rf then .ok acc' else walkEntries m ign rel acc' children
/-- Walk the children of a directory in order, threading the accumulator
and aborting on the first error. -/
def walkEntries (m : GlobMatcher) (ign : List String) (rel : List String)
    (acc : List String) : FSEntries → Except WalkErr (List String)
  | .nil => .ok acc
  | .cons name node rest =>
    match walkNode m ign (rel ++ [name]) acc node with
    | .error e => .error e
    | .ok acc' => walkEntries m ign rel acc' rest
end

/-- Model of `sourceFiles` (lines 84-123): walk the tree rooted at the source path;
on any surfaced error return it and discard the partial list (the `.error`
case carries no list, matching `return nil, err`). -/
def sourceFilesModel (m : GlobMatcher) (ign : List String) (tree : FSNode) :
    Except WalkErr (List String) :=
  walkNode m ign [] [] tree

mutual
/-- Relative component paths of the regular files the walk can reach:
children of an unreadable directory are pruned. -/
def prunedComps : FSNode → List (List String)
  | .file _ => [[]]
  | .dir rf _ children => if rf then [] else prunedEntriesComps children
/-- Map of `prunedComps` over a child list, with each child's name consed on. -/
def prunedEntriesComps : FSEntries → List (List String)
  | .nil => []
  | .cons name node rest =>
    (prunedComps node).map (fun cs => name :: cs) ++ prunedEntriesComps rest
end

mutual
/-- Every entry the walk visits (unreadable subtrees are not visited) can
be `os.Stat`-ed successfully. -/
def visitOk : FSNode → Bool
  | .file sf => !sf
  | .dir rf sf children => !sf && (rf || visitOkEntries children)
/-- Conjunction of `visitOk` over a child list. -/
def visitOkEntries : FSEntries → Bool
  | .nil => true
  | .cons _ node rest => visitOk node && visitOkEntries rest
end

mutual
/-- A tree with no I/O failures at all. -/
def healthy : FSNode → Bool
  | .file sf => !sf
  | .dir rf sf children => !rf && !sf && healthyEntries children
/-- Conjunction of `healthy` over a child list. -/
def healthyEntries : FSEntries → Bool
  | .nil => true
  | .cons _ node rest => healthy node && healthyEntries rest
end

/-- The names of a directory's entries, in order. -/
def entryNames : FSEntries → List String
  | .nil => []
  | .cons name _ rest => name :: entryNames rest

/-- No duplicate strings in a list (executable). -/
def nodupNames : List String → Bool
  | [] => true
  | n :: rest => !rest.contains n && nodupNames rest

/-- A legal filesystem name: non-empty and without a path separator. -/
def cleanName (s : String) : Bool := s ≠ "" && !s.data.contains '/'

mutual
/-- All names in the tree are legal filesystem names and siblings are
pairwise distinct — true of any real directory tree. -/
def wellNamed : FSNode → Bool
  | .file _ => true
  | .dir _ _ children => nodupNames (entryNames children) && wellNamedEntries children
/-- Conjunction of `wellNamed` over a child list. -/
def wellNamedEntries : FSEntries → Bool
  | .nil => true
  | .cons name node rest => cleanName name && wellNamed node && wellNamedEntries rest
end

/-- Predicate `EntriesHas ch c nd`: the child list `ch` has an entry named `c` whose
node is `nd`. -/
def EntriesHas : FSEntries → String → FSNode → Prop
  | .nil, _, _ => False
  | .cons name node rest, c, nd => (name = c ∧ node = nd) ∨ EntriesHas rest c nd

/-- The node is a regular file. -/
def IsFileNode (nd : FSNode) : Prop := ∃ sf, nd = FSNode.file sf

/-- Predicate `HasFileAt t cs`: following the component path `cs` from `t` reaches a
regular file.  The empty path reaches a file only if `t` itself is one, so
for a directory root the root itself is never a file path, and paths ending
at directories are excluded. -/
def HasFileAt : FSNode → List String → Prop
  | nd, [] => IsFileNode nd
  | .file _, _ :: _ => False
  | .dir _ _ children, c :: rest => ∃ nd, EntriesHas children c nd ∧ HasFileAt nd rest

/-- Witness fixture tree holding `a.txt`, `b.png` and `sub/c.txt`, all healthy. -/
def treeEx : FSNode :=
  .dir false false
    (.cons "a.txt" (.file false)
      (.cons "b.png" (.file false)
        (.cons "sub" (.dir false false (.cons "c.txt" (.file false) .nil)) .nil)))

/-- Counterexample fixture tree: a healthy `a.txt` next to a directory
`locked` whose contents cannot be read (permission denied). -/
def treeReadFail : FSNode :=
  .dir false false
    (.cons "a.txt" (.file false)
      (.cons "locked" (.dir true false (.cons "hidden.txt" (.file false) .nil)) .nil))

/-- Witness fixture tree: `gone.txt` disappears between the walk's lstat
and the callback's `os.Stat` (removed mid-walk). -/
def treeStatFail : FSNode :=
  .dir false false
    (.cons "a.txt" (.file false) (.cons "gone.txt" (.file true) .nil))

/-! ### Upload orchestrator (lines 176-222) -/

/-- Why a run aborts: the enumeration error returned on line 179, or a
worker panic (which kills the whole process). -/
inductive RunErr where
  | enumErr (e : WalkErr) : RunErr
  | panicked (pk : PanicKind) : RunErr

/-- Result of a whole run: the Go `(uint64, error)` pair plus the total
number of put requests sent. -/
structure RunOutcome where
  result : Except RunErr Nat
  netCalls : Nat

/-- One worker's pull loop (lines 193-217): drain the assigned task list in
order, running the retry loop on each task; a panic ends the worker (and
the process), a success adds its count (0 or 1) to the worker's sum.  The
second component counts put requests sent, including those of a task that
eventually panicked. -/
def runWorker (cfg : S3Config) (env : UploadEnv) (dryrun : Bool) :
    List String → (Except PanicKind Nat) × Nat
  | [] => (.ok 0, 0)
  | t :: ts =>
    let r := runTask (fun _ => uploadFile cfg env t dryrun)
    match r.outcome with
    | .error pk => (.error pk, r.netCalls)
    | .ok n =>
      let rest := runWorker cfg env dryrun ts
      (match rest.1 with
       | .error pk => .error pk
       | .ok total => .ok (n + total), r.netCalls + rest.2)

/-- Combine the workers' results: any panic aborts the process; otherwise
the counts are summed into the shared atomic counter.  Put-request counts
are summed over all workers either way. -/
def collectWorkers : List ((Except PanicKind Nat) × Nat) → (Except PanicKind Nat) × Nat
  | [] => (.ok 0, 0)
  | r :: rest =>
    let c := collectWorkers rest
    (match r.1, c.1 with
     | .error pk, _ => .error pk
     | .ok _, .error pk => .error pk
     | .ok n, .ok total => .ok (n + total), r.2 + c.2)

/-- Schedules: `partition` is a task schedule that `parallel` workers draining the
closed channel of lines 182-186 can realize: with no workers no task is
consumed; with `parallel` workers there is one (possibly empty) task
subsequence per worker and every enqueued task is consumed by exactly one
worker. -/
def ValidPartition (parallel : Int) (files : List String)
    (partition : List (List String)) : Prop :=
  if parallel ≤ 0 then partition = []
  else partition.length = parallel.toNat ∧ partition.flatten.Perm files

/-- Model of `Upload` (lines 176-222): enumerate (propagating the error), load the
channel, run the workers over their schedule, wait, and return the shared
counter.  The `parallel` count itself only constrains which partitions are
valid, so it is not consumed here. -/
def Upload (cfg : S3Config) (env : UploadEnv) (m : GlobMatcher) (tree : FSNode)
    (_parallel : Int) (dryrun : Bool) (partition : List (List String)) : RunOutcome :=
  match sourceFilesModel m cfg.ignore tree with
  | .error e => ⟨.error (.enumErr e), 0⟩
  | .ok _ =>
    let c := collectWorkers (partition.map (runWorker cfg env dryrun))
    match c.1 with
    | .error pk => ⟨.error (.panicked pk), c.2⟩
    | .ok n => ⟨.ok n, c.2⟩

/-- C2: for every relative path `P` and set `S` of well-formed ignore
patterns (the matcher yields a boolean for each of them), `isUploadableFile`
returns `false` iff some pattern in `S` glob-matches `P`; when no pattern
matches it returns `true`. -/
theorem filter_false_iff_match (m : GlobMatcher) (S : List String) (P : String)
    (hwf : ∀ pat ∈ S, ∃ b, m pat P = .ok b) :
    (isUploadableFile m S P = .ok false ↔ ∃ pat ∈ S, m pat P = .ok true) ∧
    ((∀ pat ∈ S, m pat P = .ok false) → isUploadableFile m S P = .ok true) := by
  induction S with
  | nil => simp [isUploadableFile]
  | cons pat rest ih =>
    obtain ⟨b, hb⟩ := hwf pat (List.mem_cons_self pat rest)
    have ih' := ih (fun q hq => hwf q (List.mem_cons_of_mem pat hq))
    cases b with
    | true =>
      constructor
      · constructor
        · intro _; exact ⟨pat, List.mem_cons_self pat rest, hb⟩
        · intro _; simp [isUploadableFile, hb]
      · intro hall
        have := hall pat (List.mem_cons_self pat rest)
        rw [hb] at this
        cases this
    | false =>
      have hstep : isUploadableFile m (pat :: rest) P = isUploadableFile m rest P := by
        simp [isUploadableFile, hb]
      constructor
      · rw [hstep, ih'.1]
        constructor
        · rintro ⟨q, hq, hqm⟩; exact ⟨q, List.mem_cons_of_mem pat hq, hqm⟩
        · rintro ⟨q, hq, hqm⟩
          rcases List.mem_cons.mp hq with rfl | hq'
          · rw [hb] at hqm; cases hqm
          · exact ⟨q, hq', hqm⟩
      · intro hall
        rw [hstep]
        exact ih'.2 (fun q hq => hall q (List.mem_cons_of_mem pat hq))

/-- C2 witness: with the concrete matcher, `["b.txt", "a.txt"]` excludes
`"a.txt"` and `["b.txt"]` does not. -/
theorem filter_false_iff_match_witness :
    isUploadableFile exMatcher ["b.txt", "a.txt"] "a.txt" = .ok false ∧
    isUploadableFile exMatcher ["b.txt"] "a.txt" = .ok true := by
  have hwf1 : ∀ pat ∈ ["b.txt", "a.txt"], ∃ b, exMatcher pat "a.txt" = .ok b := by
    intro pat hp
    rcases List.mem_cons.mp hp with rfl | hp'
    · exact ⟨false, rfl⟩
    · rcases List.mem_cons.mp hp' with rfl | hp''
      · exact ⟨true, rfl⟩
      · cases hp''
  have hwf2 : ∀ pat ∈ ["b.txt"], ∃ b, exMatcher pat "a.txt" = .ok b := by
    intro pat hp
    rcases List.mem_cons.mp hp with rfl | hp'
    · exact ⟨false, rfl⟩
    · cases hp'
  refine ⟨(filter_false_iff_match exMatcher ["b.txt", "a.txt"] "a.txt" hwf1).1.mpr
      ⟨"a.txt", by simp, rfl⟩,
    (filter_false_iff_match exMatcher ["b.txt"] "a.txt" hwf2).2 ?_⟩
  intro pat hp
  rcases List.mem_cons.mp hp with rfl | hp'
  · rfl
  · cases hp'

/-- C8 counterexample: the pattern list `["a.txt", "["]` contains the
malformed pattern `"["`, yet on the path `"a.txt"` the filter returns
`.ok false` — the compilation error of the later pattern is swallowed by the
earlier match's short-circuit, contradicting "for every path and every
pattern list containing a malformed pattern, the path filter surfaces the
pattern-compilation error". -/
theorem filter_swallows_bad_pattern_cex :
    exMatcher "[" "a.txt" = .error "unexpected end of input" ∧
    isUploadableFile exMatcher ["a.txt", "["] "a.txt" = .ok false := by
  exact ⟨rfl, rfl⟩

/-- C8 (amended): the patterns are tested in the order given; provided no
earlier pattern matches the path, a malformed pattern surfaces its
compilation error, and a matching pattern short-circuits with `false`. -/
theorem filter_order_shortcircuit (m : GlobMatcher) (P : String)
    (S1 : List String) (pat : String) (S2 : List String)
    (hpre : ∀ q ∈ S1, m q P = .ok false) :
    (∀ e, m pat P = .error e → isUploadableFile m (S1 ++ pat :: S2) P = .error e) ∧
    (m pat P = .ok true → isUploadableFile m (S1 ++ pat :: S2) P = .ok false) := by
  induction S1 with
  | nil =>
    constructor
    · intro e he; simp [isUploadableFile, he]
    · intro hm; simp [isUploadableFile, hm]
  | cons q S1' ih =>
    have hq : m q P = .ok false := hpre q (List.mem_cons_self q S1')
    have ih' := ih (fun r hr => hpre r (List.mem_cons_of_mem q hr))
    have hstep : isUploadableFile m ((q :: S1') ++ pat :: S2) P
        = isUploadableFile m (S1' ++ pat :: S2) P := by
      simp [isUploadableFile, hq]
    exact ⟨fun e he => by rw [hstep]; exact ih'.1 e he,
      fun hm => by rw [hstep]; exact ih'.2 hm⟩

/-- C8 witness: with no earlier match, the malformed pattern's error is
surfaced, and a matching first pattern yields `false`. -/
theorem filter_order_shortcircuit_witness :
    isUploadableFile exMatcher ["b.txt", "["] "a.txt"
      = .error "unexpected end of input" ∧
    isUploadableFile exMatcher ["a.txt", "c.txt"] "a.txt" = .ok false := by
  have hpre : ∀ q ∈ ["b.txt"], exMatcher q "a.txt" = .ok false := by
    intro q hq
    rcases List.mem_cons.mp hq with rfl | hq'
    · rfl
    · cases hq'
  have hpre2 : ∀ q ∈ ([] : List String), exMatcher q "a.txt" = .ok false := by
    intro q hq; cases hq
  exact ⟨(filter_order_shortcircuit exMatcher "a.txt" ["b.txt"] "[" [] hpre).1
      "unexpected end of input" rfl,
    (filter_order_shortcircuit exMatcher "a.txt" [] "a.txt" ["c.txt"] hpre2).2 rfl⟩

/-! ### Retry-loop lemmas -/

theorem retryLoop_ok (oracle : Nat → UploadFileResult) (idx r n : Nat)
    (h : (oracle idx).res = .ok n) :
    retryLoop oracle idx r = ⟨.ok n, 1, 0, (oracle idx).netCalls⟩ := by
  rw [retryLoop]
  simp only [h]

theorem retryLoop_unknown (oracle : Nat → UploadFileResult) (idx r : Nat) (e : UploadErr)
    (h : (oracle idx).res = .error e) (ha : isAwsError e = false) :
    retryLoop oracle idx r = ⟨.error (.unknownError e), 1, 0, (oracle idx).netCalls⟩ := by
  rw [retryLoop]
  simp only [h, ha, Bool.false_eq_true, if_false]

theorem retryLoop_aws_exhaust (oracle : Nat → UploadFileResult) (idx r : Nat) (e : UploadErr)
    (h : (oracle idx).res = .error e) (ha : isAwsError e = true) (hr : r ≤ 1) :
    retryLoop oracle idx r = ⟨.error (.retriesExhausted e), 1, 0, (oracle idx).netCalls⟩ := by
  rw [retryLoop]
  simp only [h, ha, if_true]
  rw [dif_neg (by omega)]

theorem retryLoop_aws_step (oracle : Nat → UploadFileResult) (idx r : Nat) (e : UploadErr)
    (h : (oracle idx).res = .error e) (ha : isAwsError e = true) (hr : 2 ≤ r) :
    retryLoop oracle idx r =
      ⟨(retryLoop oracle (idx + 1) (r - 1)).outcome,
       (retryLoop oracle (idx + 1) (r - 1)).attempts + 1,
       (retryLoop oracle (idx + 1) (r - 1)).sleepSeconds + 1,
       (retryLoop oracle (idx + 1) (r - 1)).netCalls + (oracle idx).netCalls⟩ := by
  rw [retryLoop]
  simp only [h, ha, if_true]
  rw [dif_pos (by omega)]

theorem retryLoop_attempts_pos (oracle : Nat → UploadFileResult) (idx r : Nat) :
    1 ≤ (retryLoop oracle idx r).attempts := by
  rcases h : (oracle idx).res with e | n
  · by_cases ha : isAwsError e = true
    · by_cases hr : 2 ≤ r
      · rw [retryLoop_aws_step oracle idx r e h ha hr]
        exact Nat.le_add_left 1 _
      · rw [retryLoop_aws_exhaust oracle idx r e h ha (by omega)]
    · rw [retryLoop_unknown oracle idx r e h (Bool.not_eq_true _ ▸ ha)]
  · rw [retryLoop_ok oracle idx r n h]

theorem retryLoop_all_aws (oracle : Nat → UploadFileResult)
    (hall : ∀ i, ∃ e, (oracle i).res = .error e ∧ isAwsError e = true) :
    ∀ r, 1 ≤ r → ∀ idx, ∃ e,
      (retryLoop oracle idx r).outcome = .error (.retriesExhausted e) ∧
      (retryLoop oracle idx r).attempts = r ∧
      (retryLoop oracle idx r).sleepSeconds = r - 1 := by
  intro r
  induction r using Nat.strong_induction_on with
  | _ r ih =>
    intro hr idx
    obtain ⟨e, he, ha⟩ := hall idx
    by_cases h2 : 2 ≤ r
    · obtain ⟨e', ho', hat', hs'⟩ := ih (r - 1) (by omega) (by omega) (idx + 1)
      rw [retryLoop_aws_step oracle idx r e he ha h2]
      refine ⟨e', ho', ?_, ?_⟩
      · show (retryLoop oracle (idx + 1) (r - 1)).attempts + 1 = r
        omega
      · show (retryLoop oracle (idx + 1) (r - 1)).sleepSeconds + 1 = r - 1
        omega
    · rw [retryLoop_aws_exhaust oracle idx r e he ha (by omega)]
      refine ⟨e, rfl, ?_, ?_⟩
      · show 1 = r
        omega
      · show 0 = r - 1
        omega

theorem retryLoop_success_at (oracle : Nat → UploadFileResult) :
    ∀ j idx r, j + 1 ≤ r →
      (∀ i, i < j → ∃ e, (oracle (idx + i)).res = .error e ∧ isAwsError e = true) →
      ∀ n, (oracle (idx + j)).res = .ok n →
      (retryLoop oracle idx r).outcome = .ok n ∧
      (retryLoop oracle idx r).attempts = j + 1 := by
  intro j
  induction j with
  | zero =>
    intro idx r _ _ n hok
    rw [retryLoop_ok oracle idx r n (by simpa using hok)]
    exact ⟨rfl, rfl⟩
  | succ j ih =>
    intro idx r hr hpre n hok
    obtain ⟨e, he, ha⟩ := hpre 0 (Nat.succ_pos j)
    rw [retryLoop_aws_step oracle idx r e (by simpa using he) ha (by omega)]
    have hshift : ∀ i, i < j →
        ∃ e', (oracle (idx + 1 + i)).res = .error e' ∧ isAwsError e' = true := by
      intro i hi
      have hidx : idx + 1 + i = idx + (i + 1) := by omega
      rw [hidx]
      exact hpre (i + 1) (by omega)
    have hok' : (oracle (idx + 1 + j)).res = .ok n := by
      have hidx : idx + 1 + j = idx + (j + 1) := by omega
      rw [hidx]; exact hok
    have hrec := ih (idx + 1) (r - 1) (by omega) hshift n hok'
    exact ⟨hrec.1, by simp only [hrec.2]⟩

/-- C1: a task whose upload fails with a retryable (awserr-classified) error
on every attempt performs exactly 30 attempts with 29 one-second backoffs
and escalates to a panic (fatal for the whole run); a task that succeeds on
attempt `k` (`k ≤ 30`) reports success with count 1 after exactly `k`
attempts. -/
theorem retry_bound_thirty_attempts :
    (∀ oracle : Nat → UploadFileResult,
      (∀ i, ∃ e, (oracle i).res = .error e ∧ isAwsError e = true) →
      ∃ e, (runTask oracle).outcome = .error (.retriesExhausted e) ∧
        (runTask oracle).attempts = 30 ∧ (runTask oracle).sleepSeconds = 29) ∧
    (∀ oracle : Nat → UploadFileResult, ∀ k, 1 ≤ k → k ≤ 30 →
      (∀ i, i < k - 1 → ∃ e, (oracle i).res = .error e ∧ isAwsError e = true) →
      (oracle (k - 1)).res = .ok 1 →
      (runTask oracle).outcome = .ok 1 ∧ (runTask oracle).attempts = k) := by
  constructor
  · intro oracle hall
    exact retryLoop_all_aws oracle hall 30 (by omega) 0
  · intro oracle k hk1 hk30 hpre hok
    have h := retryLoop_success_at oracle (k - 1) 0 30 (by omega)
      (fun i hi => by simpa using hpre i hi) 1 (by simpa using hok)
    refine ⟨h.1, ?_⟩
    have h2 := h.2
    show (retryLoop oracle 0 30).attempts = k
    omega

/-- C1 witness: under all-retryable failures the loop performs 30 attempts
and 29 backoffs then panics; succeeding on attempt 3 reports count 1 after
exactly 3 attempts. -/
theorem retry_bound_thirty_attempts_witness :
    (∃ e, (runTask oracleAllFail).outcome = .error (.retriesExhausted e) ∧
      (runTask oracleAllFail).attempts = 30 ∧
      (runTask oracleAllFail).sleepSeconds = 29) ∧
    (runTask oracleSucc3).outcome = .ok 1 ∧ (runTask oracleSucc3).attempts = 3 := by
  constructor
  · exact retry_bound_thirty_attempts.1 oracleAllFail
      (fun i => ⟨.awsErr "InternalError", rfl, rfl⟩)
  · exact retry_bound_thirty_attempts.2 oracleSucc3 3 (by omega) (by omega)
      (fun i hi => ⟨.awsErr "InternalError",
        by simp only [oracleSucc3, if_pos (show i < 2 by omega)], rfl⟩)
      (by simp [oracleSucc3])

/-- C7: an error classified as a transport/service (`awserr`) error is
retryable — the loop sleeps and performs a further attempt — while an error
of any other class (for example the failure to open the local file, which
`uploadFile` returns as a non-aws error) panics immediately after exactly
one attempt, with no retry. -/
theorem error_classification_fatal_vs_retryable :
    (∀ oracle : Nat → UploadFileResult, ∀ e, (oracle 0).res = .error e →
      isAwsError e = false →
      (runTask oracle).outcome = .error (.unknownError e) ∧
      (runTask oracle).attempts = 1) ∧
    (∀ oracle : Nat → UploadFileResult, ∀ e, (oracle 0).res = .error e →
      isAwsError e = true →
      2 ≤ (runTask oracle).attempts ∧ 1 ≤ (runTask oracle).sleepSeconds) ∧
    (∀ cfg env path dryrun, UploadEnv.openOk env path = false →
      uploadFile cfg env path dryrun = ⟨.error (.openErr path), 0⟩ ∧
      isAwsError (.openErr path) = false) := by
  refine ⟨?_, ?_, ?_⟩
  · intro oracle e he ha
    rw [runTask, retryLoop_unknown oracle 0 30 e he ha]
    exact ⟨rfl, rfl⟩
  · intro oracle e he ha
    rw [runTask, retryLoop_aws_step oracle 0 30 e he ha (by omega)]
    exact ⟨Nat.succ_le_succ (retryLoop_attempts_pos oracle 1 29), Nat.succ_le_succ (Nat.zero_le _)⟩
  · intro cfg env path dryrun h
    exact ⟨by rw [uploadFile, if_pos h], rfl⟩

/-- C7 witness: a non-aws error (failed local open) panics after exactly one
attempt; an aws-classified error leads to at least a second attempt after a
backoff; `uploadFile` reports open failures as non-aws errors. -/
theorem error_classification_witness :
    ((runTask (fun _ => ⟨.error (.openErr "a.txt"), 0⟩)).outcome
        = .error (.unknownError (.openErr "a.txt")) ∧
      (runTask (fun _ => ⟨.error (.openErr "a.txt"), 0⟩)).attempts = 1) ∧
    (2 ≤ (runTask oracleAllFail).attempts ∧ 1 ≤ (runTask oracleAllFail).sleepSeconds) ∧
    (uploadFile cfgEx envNoOpen "a.txt" false = ⟨.error (.openErr "a.txt"), 0⟩ ∧
      isAwsError (.openErr "a.txt") = false) := by
  refine ⟨?_, ?_, ?_⟩
  · exact error_classification_fatal_vs_retryable.1
      (fun _ => ⟨.error (.openErr "a.txt"), 0⟩) (.openErr "a.txt") rfl rfl
  · exact error_classification_fatal_vs_retryable.2.1 oracleAllFail
      (.awsErr "InternalError") rfl rfl
  · exact error_classification_fatal_vs_retryable.2.2 cfgEx envNoOpen "a.txt" false rfl

/-! ### Orchestrator lemmas -/

theorem runTask_const (u : UploadFileResult) (n : Nat) (h : u.res = .ok n) :
    runTask (fun _ => u) = ⟨.ok n, 1, 0, u.netCalls⟩ :=
  retryLoop_ok (fun _ => u) 0 30 n h

theorem runWorker_all_one (cfg : S3Config) (env : UploadEnv) (ts : List String)
    (h : ∀ t ∈ ts, uploadFile cfg env t false = ⟨.ok 1, 1⟩) :
    runWorker cfg env false ts = (.ok ts.length, ts.length) := by
  induction ts with
  | nil => rfl
  | cons t ts ih =>
    have ht := h t (List.mem_cons_self t ts)
    rw [runWorker]
    rw [runTask_const _ 1 (by rw [ht])]
    simp only [ht]
    rw [ih (fun q hq => h q (List.mem_cons_of_mem t hq))]
    simp [Nat.add_comm]

theorem runWorker_all_zero (cfg : S3Config) (env : UploadEnv) (ts : List String)
    (h : ∀ t ∈ ts, uploadFile cfg env t true = ⟨.ok 0, 0⟩) :
    runWorker cfg env true ts = (.ok 0, 0) := by
  induction ts with
  | nil => rfl
  | cons t ts ih =>
    have ht := h t (List.mem_cons_self t ts)
    rw [runWorker]
    rw [runTask_const _ 0 (by rw [ht])]
    simp only [ht]
    rw [ih (fun q hq => h q (List.mem_cons_of_mem t hq))]
    rfl

theorem uploadFile_dry_netCalls (cfg : S3Config) (env : UploadEnv) (path : String) :
    (uploadFile cfg env path true).netCalls = 0 := by
  rw [uploadFile]
  by_cases h : env.openOk path = false <;> simp [h]

theorem retryLoop_netCalls_zero (oracle : Nat → UploadFileResult)
    (h : ∀ i, (oracle i).netCalls = 0) :
    ∀ r idx, (retryLoop oracle idx r).netCalls = 0 := by
  intro r
  induction r using Nat.strong_induction_on with
  | _ r ih =>
    intro idx
    rcases hres : (oracle idx).res with e | n
    · by_cases ha : isAwsError e = true
      · by_cases hr : 2 ≤ r
        · rw [retryLoop_aws_step oracle idx r e hres ha hr]
          show (retryLoop oracle (idx + 1) (r - 1)).netCalls + (oracle idx).netCalls = 0
          rw [ih (r - 1) (by omega), h idx]
        · rw [retryLoop_aws_exhaust oracle idx r e hres ha (by omega)]
          exact h idx
      · rw [retryLoop_unknown oracle idx r e hres (Bool.not_eq_true _ ▸ ha)]
        exact h idx
    · rw [retryLoop_ok oracle idx r n hres]
      exact h idx

theorem runWorker_dry_netCalls (cfg : S3Config) (env : UploadEnv) (ts : List String) :
    (runWorker cfg env true ts).2 = 0 := by
  induction ts with
  | nil => rfl
  | cons t ts ih =>
    rw [runWorker]
    have hz : (runTask (fun _ => uploadFile cfg env t true)).netCalls = 0 :=
      retryLoop_netCalls_zero _ (fun _ => uploadFile_dry_netCalls cfg env t) 30 0
    rcases ho : (runTask (fun _ => uploadFile cfg env t true)).outcome with pk | n
    · simp only [ho, hz]
    · simp only [ho, hz]
      show 0 + (runWorker cfg env true ts).2 = 0
      rw [ih]

theorem collectWorkers_map_len (f : List String → (Except PanicKind Nat) × Nat)
    (P : List (List String)) (h : ∀ ts ∈ P, f ts = (.ok ts.length, ts.length)) :
    collectWorkers (P.map f) = (.ok (P.map List.length).sum, (P.map List.length).sum) := by
  induction P with
  | nil => rfl
  | cons ts P ih =>
    rw [List.map_cons, collectWorkers]
    rw [ih (fun q hq => h q (List.mem_cons_of_mem ts hq))]
    rw [h ts (List.mem_cons_self ts P)]
    rfl

theorem collectWorkers_map_zero (f : List String → (Except PanicKind Nat) × Nat)
    (P : List (List String)) (h : ∀ ts ∈ P, f ts = (.ok 0, 0)) :
    collectWorkers (P.map f) = (.ok 0, 0) := by
  induction P with
  | nil => rfl
  | cons ts P ih =>
    rw [List.map_cons, collectWorkers]
    rw [ih (fun q hq => h q (List.mem_cons_of_mem ts hq))]
    rw [h ts (List.mem_cons_self ts P)]
    rfl

theorem Upload_ok_unfold (cfg : S3Config) (env : UploadEnv) (m : GlobMatcher)
    (tree : FSNode) (parallel : Int) (dryrun : Bool)
    (partition : List (List String)) (files : List String)
    (hsf : sourceFilesModel m cfg.ignore tree = .ok files) :
    Upload cfg env m tree parallel dryrun partition =
      (match (collectWorkers (partition.map (runWorker cfg env dryrun))).1 with
       | .error pk => (⟨.error (.panicked pk),
           (collectWorkers (partition.map (runWorker cfg env dryrun))).2⟩ : RunOutcome)
       | .ok n => (⟨.ok n,
           (collectWorkers (partition.map (runWorker cfg env dryrun))).2⟩ : RunOutcome)) := by
  rw [Upload, hsf]

theorem collectWorkers_netCalls_zero (f : List String → (Except PanicKind Nat) × Nat)
    (P : List (List String)) (h : ∀ ts ∈ P, (f ts).2 = 0) :
    (collectWorkers (P.map f)).2 = 0 := by
  induction P with
  | nil => rfl
  | cons ts P ih =>
    rw [List.map_cons, collectWorkers]
    show (f ts).2 + (collectWorkers (P.map f)).2 = 0
    rw [ih (fun q hq => h q (List.mem_cons_of_mem ts hq)), h ts (List.mem_cons_self ts P)]

/-- C3: when every enumerated task's upload succeeds on its first attempt
(the file opens and the put returns no error), a run over any task schedule
that `parallel` workers can realize (`1 ≤ parallel ≤ N`) returns exactly
`N`, the number of enumerated tasks, whatever the partition — i.e.
independent of the parallelism. -/
theorem count_conservation (cfg : S3Config) (env : UploadEnv) (m : GlobMatcher)
    (tree : FSNode) (parallel : Int) (files : List String)
    (partition : List (List String))
    (hsf : sourceFilesModel m cfg.ignore tree = .ok files)
    (hp1 : 1 ≤ parallel) (hp2 : parallel.toNat ≤ files.length)
    (hvp : ValidPartition parallel files partition)
    (hopen : ∀ p ∈ files, env.openOk p = true)
    (hput : ∀ p ∈ files, env.putResult (putInputFor cfg env p) = none) :
    (Upload cfg env m tree parallel false partition).result = .ok files.length := by
  have hnp : ¬parallel ≤ 0 := by omega
  rw [ValidPartition, if_neg hnp] at hvp
  have hmem : ∀ ts ∈ partition, ∀ t ∈ ts, t ∈ files := by
    intro ts hts t ht
    exact hvp.2.mem_iff.mp (List.mem_flatten_of_mem hts ht)
  have hone : ∀ ts ∈ partition, ∀ t ∈ ts, uploadFile cfg env t false = ⟨.ok 1, 1⟩ := by
    intro ts hts t ht
    have hf := hmem ts hts t ht
    rw [uploadFile]
    rw [if_neg (by simp [hopen t hf])]
    simp [hput t hf]
  have hlen : (partition.map List.length).sum = files.length := by
    rw [← List.length_flatten, hvp.2.length_eq]
  rw [Upload_ok_unfold cfg env m tree parallel false partition files hsf]
  rw [collectWorkers_map_len (runWorker cfg env false) partition
    (fun ts hts => runWorker_all_one cfg env ts (hone ts hts))]
  simp [hlen]

/-- C3 witness: two files, parallelism 2, one file per worker — the run
returns 2. -/
theorem count_conservation_witness :
    (Upload cfgEx envOk exMatcher treeEx 2 false [["a.txt"], ["b.png", "sub/c.txt"]]).result
      = .ok 3 := by
  have hsf : sourceFilesModel exMatcher cfgEx.ignore treeEx
      = .ok ["a.txt", "b.png", "sub/c.txt"] := by rfl
  have h := count_conservation cfgEx envOk exMatcher treeEx 2
    ["a.txt", "b.png", "sub/c.txt"] [["a.txt"], ["b.png", "sub/c.txt"]] hsf
    (by omega) (by simp) ?_ (fun p _ => rfl) (fun p _ => rfl)
  · exact h
  · rw [ValidPartition, if_neg (by omega)]
    exact ⟨rfl, by decide⟩

/-- C4: with the dry-run flag enabled the run never issues a put request
(whatever the tree, environment and schedule), and whenever enumeration
succeeds and each scheduled file can be opened, it returns total count 0. -/
theorem dryrun_no_network_zero_count (cfg : S3Config) (env : UploadEnv)
    (m : GlobMatcher) (tree : FSNode) (parallel : Int)
    (partition : List (List String)) :
    (Upload cfg env m tree parallel true partition).netCalls = 0 ∧
    (∀ files, sourceFilesModel m cfg.ignore tree = .ok files →
      (∀ p ∈ partition.flatten, env.openOk p = true) →
      (Upload cfg env m tree parallel true partition).result = .ok 0) := by
  constructor
  · rw [Upload]
    rcases hsf : sourceFilesModel m cfg.ignore tree with e | fs
    · rfl
    · have hz := collectWorkers_netCalls_zero (runWorker cfg env true) partition
        (fun ts _ => runWorker_dry_netCalls cfg env ts)
      rcases hc : (collectWorkers (partition.map (runWorker cfg env true))).1 with pk | n
      · simp only [hc]
        exact hz
      · simp only [hc]
        exact hz
  · intro files hsf hopen
    have hzero : ∀ ts ∈ partition, ∀ t ∈ ts, uploadFile cfg env t true = ⟨.ok 0, 0⟩ := by
      intro ts hts t ht
      rw [uploadFile]
      rw [if_neg (by simp [hopen t (List.mem_flatten_of_mem hts ht)])]
      rfl
    rw [Upload_ok_unfold cfg env m tree parallel true partition files hsf]
    rw [collectWorkers_map_zero (runWorker cfg env true) partition
      (fun ts hts => runWorker_all_zero cfg env ts (hzero ts hts))]

/-- C4 witness: a dry run over the three-file tree with one worker sends no
put request and returns 0. -/
theorem dryrun_no_network_zero_count_witness :
    (Upload cfgEx envOk exMatcher treeEx 1 true [["a.txt", "b.png", "sub/c.txt"]]).netCalls
        = 0 ∧
    (Upload cfgEx envOk exMatcher treeEx 1 true [["a.txt", "b.png", "sub/c.txt"]]).result
        = .ok 0 := by
  refine ⟨(dryrun_no_network_zero_count cfgEx envOk exMatcher treeEx 1
      [["a.txt", "b.png", "sub/c.txt"]]).1,
    (dryrun_no_network_zero_count cfgEx envOk exMatcher treeEx 1
      [["a.txt", "b.png", "sub/c.txt"]]).2 ["a.txt", "b.png", "sub/c.txt"] rfl
      (fun p _ => rfl)⟩

/-- C10: invoked with parallelism 0 (or any non-positive value) the `for i
:= 0; i < parallel; i++` loop launches no worker, the channel is never
drained, and the run returns total 0 with no error even when the enumerated
task list is non-empty. -/
theorem nonpositive_parallelism_zero (cfg : S3Config) (env : UploadEnv)
    (m : GlobMatcher) (tree : FSNode) (parallel : Int) (dryrun : Bool)
    (files : List String) (partition : List (List String))
    (hp : parallel ≤ 0)
    (hsf : sourceFilesModel m cfg.ignore tree = .ok files)
    (hvp : ValidPartition parallel files partition) :
    (Upload cfg env m tree parallel dryrun partition).result = .ok 0 ∧
    (Upload cfg env m tree parallel dryrun partition).netCalls = 0 := by
  rw [ValidPartition, if_pos hp] at hvp
  subst hvp
  rw [Upload]
  rw [hsf]
  exact ⟨rfl, rfl⟩

/-- C10 witness: parallelism 0 over the non-empty three-file tree returns 0
without error. -/
theorem nonpositive_parallelism_zero_witness :
    (Upload cfgEx envOk exMatcher treeEx 0 false []).result = .ok 0 ∧
    (Upload cfgEx envOk exMatcher treeEx 0 false []).netCalls = 0 := by
  exact nonpositive_parallelism_zero cfgEx envOk exMatcher treeEx 0 false
    ["a.txt", "b.png", "sub/c.txt"] [] (by omega) rfl
    (by rw [ValidPartition, if_pos (by omega)])

/-! ### Walk lemmas -/

theorem walkFn_empty_ignore (m : GlobMatcher) (rel : List String) (isDir sf : Bool)
    (acc : List String) (hrel : rel ≠ []) :
    walkFn m [] rel isDir sf acc =
      (if sf then .error (.statErr (joinRel rel))
       else if isDir then .ok acc else .ok (acc ++ [joinRel rel])) := by
  rw [walkFn, if_neg hrel]
  rfl

mutual
theorem walkNode_visitOk (m : GlobMatcher) (rel acc : List String) (nd : FSNode)
    (hrel : rel ≠ []) (h : visitOk nd = true) :
    walkNode m [] rel acc nd =
      .ok (acc ++ (prunedComps nd).map (fun cs => joinRel (rel ++ cs))) := by
  cases nd with
  | file sf =>
    have hsf : sf = false := by simpa [visitOk] using h
    rw [walkNode, walkFn_empty_ignore m rel false sf acc hrel, hsf]
    simp [prunedComps]
  | dir rf sf ch =>
    have hsf : sf = false := by
      rcases sf <;> simp_all [visitOk]
    rw [walkNode, walkFn_empty_ignore m rel true sf acc hrel, hsf]
    cases hrf : rf with
    | true =>
      simp [prunedComps, hrf]
    | false =>
      have hch : visitOkEntries ch = true := by
        rcases hv : visitOkEntries ch <;> simp_all [visitOk]
      simp only [Bool.false_eq_true, if_false, if_true]
      rw [walkEntries_visitOk m rel acc ch hch]
      simp [prunedComps]
theorem walkEntries_visitOk (m : GlobMatcher) (rel acc : List String) (ch : FSEntries)
    (h : visitOkEntries ch = true) :
    walkEntries m [] rel acc ch =
      .ok (acc ++ (prunedEntriesComps ch).map (fun cs => joinRel (rel ++ cs))) := by
  cases ch with
  | nil => simp [walkEntries, prunedEntriesComps]
  | cons name node rest =>
    have hnode : visitOk node = true := by
      rcases hv : visitOk node <;> simp_all [visitOkEntries]
    have hrest : visitOkEntries rest = true := by
      rcases hv : visitOkEntries rest <;> simp_all [visitOkEntries]
    rw [walkEntries]
    rw [walkNode_visitOk m (rel ++ [name]) acc node (by simp) hnode]
    show walkEntries m [] rel
        (acc ++ (prunedComps node).map (fun cs => joinRel (rel ++ [name] ++ cs))) rest = _
    rw [walkEntries_visitOk m rel _ rest hrest]
    simp [prunedEntriesComps, List.map_map, Function.comp_def, List.append_assoc]
end

mutual
theorem walkNode_statFail (m : GlobMatcher) (rel acc : List String) (nd : FSNode)
    (hrel : rel ≠ []) (h : visitOk nd = false) :
    ∃ p, walkNode m [] rel acc nd = .error (.statErr p) := by
  cases nd with
  | file sf =>
    have hsf : sf = true := by simpa [visitOk] using h
    rw [walkNode, walkFn_empty_ignore m rel false sf acc hrel, hsf]
    exact ⟨joinRel rel, rfl⟩
  | dir rf sf ch =>
    rw [walkNode, walkFn_empty_ignore m rel true sf acc hrel]
    cases hsf : sf with
    | true => exact ⟨joinRel rel, rfl⟩
    | false =>
      have hrf : rf = false := by
        rcases rf <;> simp_all [visitOk]
      have hch : visitOkEntries ch = false := by
        rcases hv : visitOkEntries ch <;> simp_all [visitOk]
      simp only [Bool.false_eq_true, if_false, hrf]
      exact walkEntries_statFail m rel acc ch hch
theorem walkEntries_statFail (m : GlobMatcher) (rel acc : List String) (ch : FSEntries)
    (h : visitOkEntries ch = false) :
    ∃ p, walkEntries m [] rel acc ch = .error (.statErr p) := by
  cases ch with
  | nil => simp [visitOkEntries] at h
  | cons name node rest =>
    rw [walkEntries]
    cases hnode : visitOk node with
    | false =>
      obtain ⟨p, hp⟩ := walkNode_statFail m (rel ++ [name]) acc node (by simp) hnode
      exact ⟨p, by rw [hp]⟩
    | true =>
      have hrest : visitOkEntries rest = false := by
        rcases hv : visitOkEntries rest <;> simp_all [visitOkEntries]
      rw [walkNode_visitOk m (rel ++ [name]) acc node (by simp) hnode]
      exact walkEntries_statFail m rel _ rest hrest
end

/-- C5 (amended): an error returned by the walk callback — here an
`os.Stat` failure on a visited entry, such as a path removed mid-walk —
aborts enumeration and surfaces the error with no partial list (the error
case of `sourceFiles` carries no paths, matching `return nil, err`); but an
I/O error the walker itself encounters while reading a directory is handed
to the callback, which ignores its `err` argument, so the unreadable
directory's contents are silently pruned and enumeration completes without
error. -/
theorem walk_callback_errors_abort :
    (∀ m : GlobMatcher, ∀ sf : Bool, ∀ ch : FSEntries, visitOkEntries ch = false →
      ∃ p, sourceFilesModel m [] (.dir false sf ch) = .error (.statErr p)) ∧
    (∀ m : GlobMatcher, ∀ rf sf : Bool, ∀ ch : FSEntries,
      (rf || visitOkEntries ch) = true →
      sourceFilesModel m [] (.dir rf sf ch)
        = .ok ((prunedComps (.dir rf sf ch)).map joinRel)) := by
  constructor
  · intro m sf ch h
    rw [sourceFilesModel, walkNode]
    rw [show walkFn m [] [] true sf [] = .ok [] from rfl]
    exact walkEntries_statFail m [] [] ch h
  · intro m rf sf ch h
    rw [sourceFilesModel, walkNode]
    rw [show walkFn m [] [] true sf [] = .ok [] from rfl]
    cases hrf : rf with
    | true => simp [prunedComps]
    | false =>
      have hch : visitOkEntries ch = true := by simp_all
      show walkEntries m [] [] [] ch = _
      rw [walkEntries_visitOk m [] [] ch hch]
      simp [prunedComps]

/-- C5 counterexample: in `treeReadFail` the directory `locked` cannot be
read — an I/O error occurs during traversal — yet enumeration neither
aborts nor surfaces an error: it returns the partial list `["a.txt"]`,
contradicting the claim that any traversal I/O error aborts enumeration. -/
theorem walk_readdir_error_swallowed_cex :
    sourceFilesModel exMatcher [] treeReadFail = .ok ["a.txt"] := by
  rfl

/-- C5 witness: a stat failure (`gone.txt` removed mid-walk) aborts with a
surfaced error and no list; an unreadable directory is silently pruned. -/
theorem walk_callback_errors_abort_witness :
    (∃ p, sourceFilesModel exMatcher [] treeStatFail = .error (.statErr p)) ∧
    sourceFilesModel exMatcher [] treeReadFail
      = .ok ((prunedComps treeReadFail).map joinRel) := by
  constructor
  · exact walk_callback_errors_abort.1 exMatcher false
      (.cons "a.txt" (.file false) (.cons "gone.txt" (.file true) .nil)) rfl
  · exact walk_callback_errors_abort.2 exMatcher false false
      (.cons "a.txt" (.file false)
        (.cons "locked" (.dir true false (.cons "hidden.txt" (.file false) .nil)) .nil))
      rfl

/-! ### Relative-path strings: `joinRel` is injective on clean components -/

theorem intercalate_cons₂ (sep a b : List Char) (t : List (List Char)) :
    List.intercalate sep (a :: b :: t) = a ++ sep ++ List.intercalate sep (b :: t) := by
  simp [List.intercalate, List.append_assoc]

theorem joinRel_data (cs : List String) :
    (joinRel cs).data = List.intercalate ['/'] (cs.map String.data) := by
  induction cs with
  | nil => rfl
  | cons c rest ih =>
    cases rest with
    | nil => simp [joinRel, List.intercalate]
    | cons c' rest' =>
      rw [show joinRel (c :: c' :: rest') = c ++ "/" ++ joinRel (c' :: rest') from rfl]
      rw [show List.map String.data (c :: c' :: rest')
        = c.data :: c'.data :: List.map String.data rest' from rfl]
      rw [intercalate_cons₂]
      rw [show (c'.data :: List.map String.data rest')
        = List.map String.data (c' :: rest') from rfl]
      rw [← ih]
      simp

theorem cleanName_no_slash (n : String) (h : cleanName n = true) : '/' ∉ n.data := by
  rw [cleanName, Bool.and_eq_true] at h
  simpa using h.2

theorem joinRel_inj (cs₁ cs₂ : List String) (h1 : cs₁ ≠ []) (h2 : cs₂ ≠ [])
    (hc1 : ∀ n ∈ cs₁, cleanName n = true) (hc2 : ∀ n ∈ cs₂, cleanName n = true)
    (heq : joinRel cs₁ = joinRel cs₂) : cs₁ = cs₂ := by
  have hd : List.intercalate ['/'] (cs₁.map String.data)
      = List.intercalate ['/'] (cs₂.map String.data) := by
    rw [← joinRel_data, ← joinRel_data, heq]
  have hx1 : ∀ l ∈ cs₁.map String.data, '/' ∉ l := by
    intro l hl
    obtain ⟨n, hn, rfl⟩ := List.mem_map.mp hl
    exact cleanName_no_slash n (hc1 n hn)
  have hx2 : ∀ l ∈ cs₂.map String.data, '/' ∉ l := by
    intro l hl
    obtain ⟨n, hn, rfl⟩ := List.mem_map.mp hl
    exact cleanName_no_slash n (hc2 n hn)
  have hs1 := List.splitOn_intercalate (cs₁.map String.data) '/' hx1 (by simpa using h1)
  have hs2 := List.splitOn_intercalate (cs₂.map String.data) '/' hx2 (by simpa using h2)
  have hmaps : cs₁.map String.data = cs₂.map String.data := by
    rw [← hs1, ← hs2, hd]
  have hinj : Function.Injective String.data := fun a b hab => String.ext hab
  exact (List.map_injective_iff.mpr hinj) hmaps

/-! ### Healthy trees: completeness of the enumeration -/

mutual
theorem healthy_visitOk (nd : FSNode) (h : healthy nd = true) : visitOk nd = true := by
  cases nd with
  | file sf => simpa [healthy, visitOk] using h
  | dir rf sf ch =>
    rw [healthy, Bool.and_eq_true, Bool.and_eq_true] at h
    rw [visitOk, h.1.2, Bool.and_eq_true]
    exact ⟨rfl, by rw [healthyEntries_visitOkEntries ch h.2, Bool.or_true]⟩
theorem healthyEntries_visitOkEntries (ch : FSEntries) (h : healthyEntries ch = true) :
    visitOkEntries ch = true := by
  cases ch with
  | nil => rfl
  | cons name node rest =>
    rw [healthyEntries, Bool.and_eq_true] at h
    rw [visitOkEntries, Bool.and_eq_true]
    exact ⟨healthy_visitOk node h.1, healthyEntries_visitOkEntries rest h.2⟩
end

theorem prunedEntriesComps_heads : ∀ (ch : FSEntries) (cs : List String),
    cs ∈ prunedEntriesComps ch → ∃ n cs', cs = n :: cs' ∧ n ∈ entryNames ch
  | .nil, cs, h => by simp [prunedEntriesComps] at h
  | .cons name node rest, cs, h => by
    rw [prunedEntriesComps, List.mem_append] at h
    rcases h with h | h
    · obtain ⟨cs', _, rfl⟩ := List.mem_map.mp h
      exact ⟨name, cs', rfl, by simp [entryNames]⟩
    · obtain ⟨n, cs', rfl, hn⟩ := prunedEntriesComps_heads rest cs h
      exact ⟨n, cs', rfl, by simp [entryNames, hn]⟩

mutual
theorem prunedComps_clean (nd : FSNode) (hw : wellNamed nd = true) :
    ∀ cs ∈ prunedComps nd, ∀ n ∈ cs, cleanName n = true := by
  cases nd with
  | file sf =>
    intro cs hcs n hn
    rw [prunedComps, List.mem_singleton] at hcs
    subst hcs
    cases hn
  | dir rf sf ch =>
    rw [wellNamed, Bool.and_eq_true] at hw
    intro cs hcs n hn
    rw [prunedComps] at hcs
    cases hrf : rf with
    | true =>
      rw [hrf] at hcs
      simp at hcs
    | false =>
      rw [hrf] at hcs
      simp only [Bool.false_eq_true, if_false] at hcs
      exact prunedEntriesComps_clean ch hw.2 cs hcs n hn
theorem prunedEntriesComps_clean (ch : FSEntries) (hw : wellNamedEntries ch = true) :
    ∀ cs ∈ prunedEntriesComps ch, ∀ n ∈ cs, cleanName n = true := by
  cases ch with
  | nil =>
    intro cs hcs
    simp [prunedEntriesComps] at hcs
  | cons name node rest =>
    rw [wellNamedEntries, Bool.and_eq_true, Bool.and_eq_true] at hw
    intro cs hcs n hn
    rw [prunedEntriesComps, List.mem_append] at hcs
    rcases hcs with h | h
    · obtain ⟨cs', hcs', rfl⟩ := List.mem_map.mp h
      rcases List.mem_cons.mp hn with rfl | hn'
      · exact hw.1.1
      · exact prunedComps_clean node hw.1.2 cs' hcs' n hn'
    · exact prunedEntriesComps_clean rest hw.2 cs h n hn
end

mutual
theorem mem_prunedComps_iff (nd : FSNode) (hh : healthy nd = true) (cs : List String) :
    cs ∈ prunedComps nd ↔ HasFileAt nd cs := by
  cases nd with
  | file sf =>
    cases cs with
    | nil => simp [prunedComps, HasFileAt, IsFileNode]
    | cons c rest => simp [prunedComps, HasFileAt]
  | dir rf sf ch =>
    rw [healthy, Bool.and_eq_true, Bool.and_eq_true] at hh
    have hrf : rf = false := by simpa using hh.1.1
    subst hrf
    rw [prunedComps]
    simp only [Bool.false_eq_true, if_false]
    rw [mem_prunedEntriesComps_iff ch hh.2 cs]
    cases cs with
    | nil =>
      simp [HasFileAt, IsFileNode]
    | cons c rest =>
      rw [HasFileAt]
      constructor
      · rintro ⟨c', r', heq, nd', hnd, hf⟩
        injection heq with heq1 heq2
        subst heq1
        subst heq2
        exact ⟨nd', hnd, hf⟩
      · rintro ⟨nd', hnd, hf⟩
        exact ⟨c, rest, rfl, nd', hnd, hf⟩
theorem mem_prunedEntriesComps_iff (ch : FSEntries) (hh : healthyEntries ch = true)
    (cs : List String) :
    cs ∈ prunedEntriesComps ch ↔
      ∃ c rest, cs = c :: rest ∧ ∃ nd, EntriesHas ch c nd ∧ HasFileAt nd rest := by
  cases ch with
  | nil => simp [prunedEntriesComps, EntriesHas]
  | cons name node rest =>
    rw [healthyEntries, Bool.and_eq_true] at hh
    rw [prunedEntriesComps, List.mem_append]
    constructor
    · rintro (h | h)
      · obtain ⟨cs', hcs', rfl⟩ := List.mem_map.mp h
        exact ⟨name, cs', rfl, node, Or.inl ⟨rfl, rfl⟩,
          (mem_prunedComps_iff node hh.1 cs').mp hcs'⟩
      · obtain ⟨c, r, rfl, nd, hnd, hf⟩ :=
          (mem_prunedEntriesComps_iff rest hh.2 cs).mp h
        exact ⟨c, r, rfl, nd, Or.inr hnd, hf⟩
    · rintro ⟨c, r, rfl, nd, hnd, hf⟩
      rcases hnd with ⟨rfl, rfl⟩ | hnd
      · exact Or.inl (List.mem_map.mpr
          ⟨r, (mem_prunedComps_iff node hh.1 r).mpr hf, rfl⟩)
      · exact Or.inr ((mem_prunedEntriesComps_iff rest hh.2 (c :: r)).mpr
          ⟨c, r, rfl, nd, hnd, hf⟩)
end

mutual
theorem prunedComps_nodup (nd : FSNode) (hw : wellNamed nd = true) :
    (prunedComps nd).Nodup := by
  cases nd with
  | file sf => simp [prunedComps]
  | dir rf sf ch =>
    rw [wellNamed, Bool.and_eq_true] at hw
    rw [prunedComps]
    rcases rf
    · simp only [Bool.false_eq_true, if_false]
      exact prunedEntriesComps_nodup ch hw.1 hw.2
    · simp
theorem prunedEntriesComps_nodup (ch : FSEntries)
    (hnn : nodupNames (entryNames ch) = true) (hw : wellNamedEntries ch = true) :
    (prunedEntriesComps ch).Nodup := by
  cases ch with
  | nil => simp [prunedEntriesComps]
  | cons name node rest =>
    rw [wellNamedEntries, Bool.and_eq_true, Bool.and_eq_true] at hw
    rw [entryNames, nodupNames, Bool.and_eq_true] at hnn
    rw [prunedEntriesComps]
    refine List.Nodup.append ?_ ?_ ?_
    · exact (prunedComps_nodup node hw.1.2).map
        (fun a b hab => (List.cons.injEq name a name b).mp hab |>.2)
    · exact prunedEntriesComps_nodup rest hnn.2 hw.2
    · intro cs hcs1 hcs2
      obtain ⟨cs', _, rfl⟩ := List.mem_map.mp hcs1
      obtain ⟨n, cs'', hns, hn⟩ := prunedEntriesComps_heads rest _ hcs2
      have hname : name = n := (List.cons.injEq name cs' n cs'').mp hns |>.1
      subst hname
      have : ¬(entryNames rest).contains name = true := by
        simpa using hnn.1
      exact this (by simpa [List.contains_iff_exists_mem_beq, List.elem_iff] using hn)
end

/-- C9: for a healthy, well-named directory tree and an empty ignore set,
the enumerator succeeds and returns exactly the relative paths of the
regular files strictly under the root — a path is in the output iff it
follows components to a regular file (so the root itself and all
directories are excluded) — and each such path appears exactly once. -/
theorem enumeration_completeness (m : GlobMatcher) (ch : FSEntries)
    (hh : healthyEntries ch = true)
    (hnn : nodupNames (entryNames ch) = true)
    (hw : wellNamedEntries ch = true) :
    sourceFilesModel m [] (.dir false false ch)
      = .ok ((prunedComps (.dir false false ch)).map joinRel) ∧
    (∀ s, s ∈ (prunedComps (.dir false false ch)).map joinRel ↔
      ∃ cs, HasFileAt (.dir false false ch) cs ∧ s = joinRel cs) ∧
    ((prunedComps (.dir false false ch)).map joinRel).Nodup := by
  have hhd : healthy (.dir false false ch) = true := by
    simp [healthy, hh]
  have hwd : wellNamed (.dir false false ch) = true := by
    simp [wellNamed, hnn, hw]
  refine ⟨?_, ?_, ?_⟩
  · rw [sourceFilesModel, walkNode]
    rw [show walkFn m [] [] true false [] = .ok [] from rfl]
    show walkEntries m [] [] [] ch = _
    rw [walkEntries_visitOk m [] [] ch (healthyEntries_visitOkEntries ch hh)]
    simp [prunedComps]
  · intro s
    constructor
    · intro hs
      obtain ⟨cs, hcs, rfl⟩ := List.mem_map.mp hs
      exact ⟨cs, (mem_prunedComps_iff _ hhd cs).mp hcs, rfl⟩
    · rintro ⟨cs, hf, rfl⟩
      exact List.mem_map.mpr ⟨cs, (mem_prunedComps_iff _ hhd cs).mpr hf, rfl⟩
  · refine List.Nodup.map_on ?_ (prunedComps_nodup _ hwd)
    intro x hx y hy hxy
    obtain ⟨nx, cx, rfl, _⟩ := prunedEntriesComps_heads ch x (by
      simpa [prunedComps] using hx)
    obtain ⟨ny, cy, rfl, _⟩ := prunedEntriesComps_heads ch y (by
      simpa [prunedComps] using hy)
    exact joinRel_inj _ _ (by simp) (by simp)
      (prunedComps_clean _ hwd _ hx) (prunedComps_clean _ hwd _ hy) hxy

/-- C9 witness: on the tree holding `a.txt`, `b.png` and `sub/c.txt` the enumerator
returns exactly those three relative paths, without duplicates. -/
theorem enumeration_completeness_witness :
    sourceFilesModel exMatcher [] treeEx = .ok ((prunedComps treeEx).map joinRel) ∧
    ((prunedComps treeEx).map joinRel).Nodup ∧
    (prunedComps treeEx).map joinRel = ["a.txt", "b.png", "sub/c.txt"] := by
  have h := enumeration_completeness exMatcher
    (.cons "a.txt" (.file false)
      (.cons "b.png" (.file false)
        (.cons "sub" (.dir false false (.cons "c.txt" (.file false) .nil)) .nil)))
    rfl rfl rfl
  exact ⟨h.1, h.2.2, rfl⟩

/-! ### Destination keys: `filepath.Join` semantics -/

theorem modifyHead_append {β : Type} (f : β → β) (l l' : List β) (h : l ≠ []) :
    (l ++ l').modifyHead f = l.modifyHead f ++ l' := by
  cases l with
  | nil => exact absurd rfl h
  | cons a t => rfl

theorem splitOn_cons_sep (l : List Char) :
    ('/' :: l).splitOn '/' = [] :: l.splitOn '/' := by
  simp [List.splitOn, List.splitOnP_cons]

theorem splitOn_cons_ne (c : Char) (hc : ¬c = '/') (l : List Char) :
    (c :: l).splitOn '/' = (l.splitOn '/').modifyHead (fun r => c :: r) := by
  simp [List.splitOn, List.splitOnP_cons, hc]

theorem splitOn_ne_nil' (l : List Char) : l.splitOn '/' ≠ [] :=
  List.splitOnP_ne_nil _ l

theorem splitOn_append_sep (a b : List Char) :
    (a ++ '/' :: b).splitOn '/' = a.splitOn '/' ++ b.splitOn '/' := by
  induction a with
  | nil =>
    rw [List.nil_append, splitOn_cons_sep]
    rfl
  | cons c a' ih =>
    by_cases hc : c = '/'
    · subst hc
      rw [List.cons_append, splitOn_cons_sep, splitOn_cons_sep, ih, List.cons_append]
    · rw [List.cons_append, splitOn_cons_ne c hc, splitOn_cons_ne c hc, ih,
        modifyHead_append _ _ _ (splitOn_ne_nil' a')]

theorem goCleanComps_clean (l : List (List Char))
    (h : ∀ c ∈ l, c ≠ [] ∧ c ≠ ['.'] ∧ c ≠ ['.', '.']) :
    ∀ st, goCleanComps st l = st.reverse ++ l := by
  induction l with
  | nil => intro st; simp [goCleanComps]
  | cons c rest ih =>
    intro st
    obtain ⟨h1, h2, h3⟩ := h c (List.mem_cons_self c rest)
    rw [goCleanComps]
    rw [if_neg (by simp [h1, h2]), if_neg h3]
    rw [ih (fun q hq => h q (List.mem_cons_of_mem c hq)) (c :: st)]
    simp

theorem intercalate_append_sep (xs ys : List (List Char)) (hx : xs ≠ []) (hy : ys ≠ []) :
    List.intercalate ['/'] (xs ++ ys)
      = List.intercalate ['/'] xs ++ '/' :: List.intercalate ['/'] ys := by
  induction xs with
  | nil => exact absurd rfl hx
  | cons x xs' ih =>
    cases xs' with
    | nil =>
      obtain ⟨y, ys', rfl⟩ := List.exists_cons_of_ne_nil hy
      rw [List.singleton_append, intercalate_cons₂]
      simp [List.intercalate, List.append_assoc]
    | cons x' t =>
      have e1 : List.intercalate ['/'] ((x :: x' :: t) ++ ys)
          = x ++ ['/'] ++ List.intercalate ['/'] ((x' :: t) ++ ys) := by
        show List.intercalate ['/'] (x :: x' :: (t ++ ys))
          = x ++ ['/'] ++ List.intercalate ['/'] (x' :: (t ++ ys))
        exact intercalate_cons₂ ['/'] x x' (t ++ ys)
      rw [e1, ih (by simp), intercalate_cons₂]
      simp [List.append_assoc]

theorem goCleanRooted_clean_concat (P Q : List Char)
    (hP : ∀ c ∈ P.splitOn '/', c ≠ [] ∧ c ≠ ['.'] ∧ c ≠ ['.', '.'])
    (hQ : ∀ c ∈ Q.splitOn '/', c ≠ [] ∧ c ≠ ['.'] ∧ c ≠ ['.', '.']) :
    goCleanRooted ('/' :: '/' :: (P ++ '/' :: Q)) = '/' :: (P ++ '/' :: Q) := by
  have hsplit : ('/' :: '/' :: (P ++ '/' :: Q)).splitOn '/'
      = [] :: [] :: (P.splitOn '/' ++ Q.splitOn '/') := by
    rw [splitOn_cons_sep, splitOn_cons_sep, splitOn_append_sep]
  have hall : ∀ c ∈ P.splitOn '/' ++ Q.splitOn '/',
      c ≠ [] ∧ c ≠ ['.'] ∧ c ≠ ['.', '.'] := by
    intro c hc
    rcases List.mem_append.mp hc with h | h
    · exact hP c h
    · exact hQ c h
  rw [goCleanRooted, hsplit]
  rw [show goCleanComps [] ([] :: [] :: (P.splitOn '/' ++ Q.splitOn '/'))
      = goCleanComps [] (P.splitOn '/' ++ Q.splitOn '/') by
    rw [goCleanComps, if_pos (by simp), goCleanComps, if_pos (by simp)]]
  rw [goCleanComps_clean _ hall []]
  rw [List.reverse_nil, List.nil_append]
  obtain ⟨p0, ps, hps⟩ := List.exists_cons_of_ne_nil (splitOn_ne_nil' P)
  rw [hps]
  show '/' :: List.intercalate ['/'] ((p0 :: ps) ++ Q.splitOn '/') = '/' :: (P ++ '/' :: Q)
  rw [intercalate_append_sep (p0 :: ps) (Q.splitOn '/') (by simp) (splitOn_ne_nil' Q)]
  rw [← hps]
  rw [List.intercalate_splitOn, List.intercalate_splitOn]

theorem goCleanRooted_clean_empty_pfx (Q : List Char)
    (hQ : ∀ c ∈ Q.splitOn '/', c ≠ [] ∧ c ≠ ['.'] ∧ c ≠ ['.', '.']) :
    goCleanRooted ('/' :: '/' :: '/' :: Q) = '/' :: Q := by
  have hsplit : ('/' :: '/' :: '/' :: Q).splitOn '/'
      = [] :: [] :: [] :: Q.splitOn '/' := by
    rw [splitOn_cons_sep, splitOn_cons_sep, splitOn_cons_sep]
  rw [goCleanRooted, hsplit]
  rw [show goCleanComps [] ([] :: [] :: [] :: Q.splitOn '/')
      = goCleanComps [] (Q.splitOn '/') by
    rw [goCleanComps, if_pos (by simp), goCleanComps, if_pos (by simp),
      goCleanComps, if_pos (by simp)]]
  rw [goCleanComps_clean _ hQ []]
  rw [List.reverse_nil, List.nil_append]
  obtain ⟨q0, qs, hqs⟩ := List.exists_cons_of_ne_nil (splitOn_ne_nil' Q)
  rw [hqs]
  show '/' :: List.intercalate ['/'] (q0 :: qs) = '/' :: Q
  rw [← hqs]
  rw [List.intercalate_splitOn]

/-- C6 counterexample: with the empty prefix and relative path `a.txt` the
code's key is `/a.txt` (because `filepath.Join` collapses the duplicate
separator), while the claimed formula `"/" + prefix + "/" + relativePath`
gives `//a.txt` — so the formula does not hold for every prefix. -/
theorem destkey_empty_prefix_cex :
    destKey "" "a.txt" = "/a.txt" ∧
    "/" ++ "" ++ "/" ++ "a.txt" = "//a.txt" ∧
    destKey "" "a.txt" ≠ "/" ++ "" ++ "/" ++ "a.txt" := by
  refine ⟨rfl, rfl, ?_⟩
  intro h
  exact absurd (congrArg String.data h) (by decide)

/-- C6 (amended): the destination key is `filepath.Join("/", prefix,
relativePath)`.  When both prefix and path split into clean components
(non-empty, no `.` or `..`; this forces them non-empty), this equals
`"/" + prefix + "/" + relativePath`; with the empty prefix the duplicate
separator collapses and the key is `"/" + relativePath`.  In the concrete
scenario with prefix `site`, the files `a.txt` and `b.png` go to keys
`/site/a.txt` and `/site/b.png`. -/
theorem destkey_join_semantics :
    (∀ pfx path : String,
      (∀ c ∈ pfx.data.splitOn '/', c ≠ [] ∧ c ≠ ['.'] ∧ c ≠ ['.', '.']) →
      (∀ c ∈ path.data.splitOn '/', c ≠ [] ∧ c ≠ ['.'] ∧ c ≠ ['.', '.']) →
      destKey pfx path = "/" ++ pfx ++ "/" ++ path) ∧
    (∀ path : String,
      (∀ c ∈ path.data.splitOn '/', c ≠ [] ∧ c ≠ ['.'] ∧ c ≠ ['.', '.']) →
      destKey "" path = "/" ++ path) ∧
    (∀ cfg env path, (putInputFor cfg env path).key = destKey cfg.pfx path) ∧
    destKey "site" "a.txt" = "/site/a.txt" ∧ destKey "site" "b.png" = "/site/b.png" := by
  refine ⟨?_, ?_, fun cfg env path => rfl, rfl, rfl⟩
  · intro pfx path hP hQ
    apply String.ext
    rw [show (destKey pfx path).data
        = goCleanRooted ('/' :: '/' :: (pfx.data ++ '/' :: path.data)) from rfl]
    rw [goCleanRooted_clean_concat pfx.data path.data hP hQ]
    simp
  · intro path hQ
    apply String.ext
    rw [show (destKey "" path).data
        = goCleanRooted ('/' :: '/' :: '/' :: path.data) from rfl]
    rw [goCleanRooted_clean_empty_pfx path.data hQ]
    simp

/-- C6 witness: the amended formula evaluated at prefix `site` (and at the
empty prefix) on `a.txt`. -/
theorem destkey_join_semantics_witness :
    destKey "site" "a.txt" = "/" ++ "site" ++ "/" ++ "a.txt" ∧
    destKey "" "a.txt" = "/" ++ "a.txt" ∧
    (putInputFor cfgEx envOk "a.txt").key = destKey "site" "a.txt" := by
  refine ⟨destkey_join_semantics.1 "site" "a.txt" (by decide) (by decide),
    destkey_join_semantics.2.1 "a.txt" (by decide),
    destkey_join_semantics.2.2.1 cfgEx envOk "a.txt"⟩

end S3Up
